import Mathlib

/-!
Verification of the offline fuzzy-search core of the polyglot flashcard
application (`src/app.js`, duplicated in `src/unnamed/part_000`).

Strings are modelled as `List Char`.  The JavaScript functions
`levenshteinBounded`, `bestTokenDistance`, `offlineSearch`, `searchIndices`
and `norm` are embedded as executable Lean functions, and the spec's claims
about them are settled below.  Floating-point scores are modelled as exact
rationals (all scores produced by the code are small exact fractions).
-/

namespace Polyglot

/-- Substitution cost used by the dynamic program of `levenshteinBounded`
(`app.js` line 186: `ai === b.charCodeAt(j-1) ? 0 : 1`). -/
def cost (x y : Char) : Nat := if x = y then 0 else 1

/-- Reference definition: the Levenshtein edit distance between two strings
under unit-cost insertions, deletions and substitutions (textbook
recurrence). -/
def lev : List Char → List Char → Nat
  | [], b => b.length
  | _ :: xs, [] => xs.length + 1
  | x :: xs, y :: ys =>
      min (lev xs (y :: ys) + 1) (min (lev (x :: xs) ys + 1) (lev xs ys + cost x y))
termination_by a b => a.length + b.length

lemma cost_symm (x y : Char) : cost x y = cost y x := by
  simp [cost, eq_comm]

lemma cost_le_one (x y : Char) : cost x y ≤ 1 := by
  unfold cost; split <;> omega

@[simp] lemma lev_nil_left (b : List Char) : lev [] b = b.length := by
  simp [lev]

@[simp] lemma lev_nil_right (a : List Char) : lev a [] = a.length := by
  cases a <;> simp [lev]

lemma lev_cons_cons (x y : Char) (xs ys : List Char) :
    lev (x :: xs) (y :: ys) =
      min (lev xs (y :: ys) + 1) (min (lev (x :: xs) ys + 1) (lev xs ys + cost x y)) := by
  rw [lev]

lemma lev_symm (a b : List Char) : lev a b = lev b a := by
  induction a, b using lev.induct with
  | case1 b => simp
  | case2 x xs => simp
  | case3 x xs y ys ih1 ih2 ih3 =>
      rw [lev_cons_cons, lev_cons_cons, ih1, ih2, ih3, cost_symm]
      omega

/-- Both one-sided length bounds: the edit distance is at least the length
difference. -/
lemma lev_length_bound (a b : List Char) :
    a.length ≤ lev a b + b.length ∧ b.length ≤ lev a b + a.length := by
  induction a, b using lev.induct with
  | case1 b => simp
  | case2 x xs => simp
  | case3 x xs y ys ih1 ih2 ih3 =>
      rw [lev_cons_cons]
      simp only [List.length_cons] at *
      omega

/-- Expansion of `lev [x] (ys ++ [y])`, the base case of the end-recurrence. -/
lemma lev_single_snoc (x y : Char) : ∀ ys : List Char,
    lev [x] (ys ++ [y]) =
      min ((ys ++ [y]).length + 1) (min (lev [x] ys + 1) (ys.length + cost x y))
  | [] => by
      simp only [List.nil_append, lev_cons_cons, lev_nil_left, lev_nil_right]
  | z :: zs => by
      have ih := lev_single_snoc x y zs
      simp only [List.cons_append, lev_cons_cons, lev_nil_left] at *
      simp only [List.length_append, List.length_cons, List.length_nil] at *
      omega

set_option maxHeartbeats 1600000 in
/-- The end-character recurrence for `lev`: removing the last character of
each string satisfies the same dynamic-programming recurrence as removing
the first.  This is what lets a row-by-row DP over prefixes compute `lev`. -/
lemma lev_snoc (x y : Char) : ∀ (n : Nat) (xs ys : List Char), xs.length + ys.length = n →
    lev (xs ++ [x]) (ys ++ [y]) =
      min (lev xs (ys ++ [y]) + 1) (min (lev (xs ++ [x]) ys + 1) (lev xs ys + cost x y)) := by
  intro n
  induction n using Nat.strong_induction_on with
  | _ n ih =>
    intro xs ys hn
    match xs, ys with
    | [], ys =>
        have h := lev_single_snoc x y ys
        simp only [List.nil_append] at h ⊢
        simp only [lev_nil_left, h, List.length_append, List.length_cons, List.length_nil]
    | x' :: xs', [] =>
        have h := lev_single_snoc y x (x' :: xs')
        rw [lev_symm ((x' :: xs') ++ [x]) ([] ++ [y])]
        simp only [List.nil_append] at *
        rw [show lev [y] ((x' :: xs') ++ [x]) = _ from h]
        rw [lev_symm [y] (x' :: xs'), cost_symm y x]
        simp only [lev_nil_right, List.length_append, List.length_cons, List.length_nil]
        omega
    | x' :: xs', y' :: ys' =>
        simp only [List.length_cons] at hn
        have ih1 := ih (xs'.length + (y' :: ys').length) (by simp only [List.length_cons]; omega)
          xs' (y' :: ys') rfl
        have ih2 := ih ((x' :: xs').length + ys'.length) (by simp only [List.length_cons]; omega)
          (x' :: xs') ys' rfl
        have ih3 := ih (xs'.length + ys'.length) (by omega) xs' ys' rfl
        simp only [List.cons_append] at ih1 ih2 ih3 ⊢
        rw [lev_cons_cons x' y' (xs' ++ [x]) (ys' ++ [y])]
        rw [ih1, ih2, ih3]
        rw [lev_cons_cons x' y' xs' (ys' ++ [y]), lev_cons_cons x' y' (xs' ++ [x]) ys',
          lev_cons_cons x' y' xs' ys']
        generalize lev xs' (y' :: (ys' ++ [y])) = A1
        generalize lev (xs' ++ [x]) (y' :: ys') = A2
        generalize lev xs' (y' :: ys') = A3
        generalize lev (x' :: xs') (ys' ++ [y]) = B1
        generalize lev (x' :: (xs' ++ [x])) ys' = B2
        generalize lev (x' :: xs') ys' = B3
        generalize lev xs' (ys' ++ [y]) = C1
        generalize lev (xs' ++ [x]) ys' = C2
        generalize lev xs' ys' = C3
        generalize cost x y = k1
        generalize cost x' y' = k2
        simp only [← min_add_add_right, ← min_add_add_left]
        simp only [add_comm, add_left_comm, add_assoc]
        simp only [min_comm, min_left_comm, min_assoc]

/-- Inner `for j` loop of `levenshteinBounded` (`app.js` lines 185-194).
Arguments: the remaining characters `bj :: bs` of `b`, the matching segment
`prev[j-1] :: prev[j] :: ...` of the previous row, and `left = cur[j-1]`.
Produces the entries `cur[j], cur[j+1], ...`. -/
def nextRowAux (ai : Char) : List Char → List Nat → Nat → List Nat
  | [], _, _ => []
  | _ :: _, [], _ => []
  | bj :: bs, p0 :: ps, left =>
      min (ps.headD 0 + 1) (min (left + 1) (p0 + cost ai bj)) ::
        nextRowAux ai bs ps (min (ps.headD 0 + 1) (min (left + 1) (p0 + cost ai bj)))

/-- Outer `for i` loop of `levenshteinBounded` (`app.js` lines 180-199),
including the row-minimum early abort (line 196) and the final bound check
(line 201).  `i` counts the characters of `a` already consumed; `prev` is
the current row of length `b.length + 1`. -/
def levLoop (mx : Nat) (b : List Char) : List Char → List Nat → Nat → Nat
  | [], prev, _ => if prev.getLastD 0 ≤ mx then prev.getLastD 0 else mx + 1
  | x :: xs, prev, i =>
      if mx < (nextRowAux x b prev (i + 1)).foldl min (i + 1) then mx + 1
      else levLoop mx b xs ((i + 1) :: nextRowAux x b prev (i + 1)) (i + 1)

/-- Model of `levenshteinBounded(a, b, max)` (`app.js` lines 168-202):
length-difference short-circuit, empty-string base cases, then the
two-row dynamic program with row-minimum early abort. -/
def levenshteinBounded (a b : List Char) (mx : Nat) : Nat :=
  if mx < Nat.dist a.length b.length then mx + 1
  else if a.length = 0 then (if b.length ≤ mx then b.length else mx + 1)
  else if b.length = 0 then (if a.length ≤ mx then a.length else mx + 1)
  else levLoop mx b a (List.range (b.length + 1)) 0

/-- Specification row: the list of prefix distances
`lev a (u ++ take j c)` for `j = 0 .. c.length`. -/
def rowSpec (a u : List Char) : List Char → List Nat
  | [] => [lev a u]
  | c :: cs => lev a u :: rowSpec a (u ++ [c]) cs

lemma rowSpec_headD (a u : List Char) : ∀ c, (rowSpec a u c).headD 0 = lev a u
  | [] => rfl
  | _ :: _ => rfl

lemma rowSpec_self_mem (a u : List Char) (c : List Char) : lev a u ∈ rowSpec a u c := by
  cases c <;> simp [rowSpec]

lemma lev_mem_rowSpec (a : List Char) : ∀ (c u : List Char), lev a (u ++ c) ∈ rowSpec a u c
  | [], u => by simp [rowSpec]
  | z :: zs, u => by
      have h := lev_mem_rowSpec a zs (u ++ [z])
      rw [List.append_assoc, List.singleton_append] at h
      simp only [rowSpec, List.mem_cons]
      exact Or.inr h

lemma rowSpec_getLastD (a : List Char) : ∀ (c u : List Char) (d : Nat),
    (rowSpec a u c).getLastD d = lev a (u ++ c)
  | [], u, d => by simp [rowSpec]
  | z :: zs, u, d => by
      have h := rowSpec_getLastD a zs (u ++ [z]) (lev a u)
      rw [List.append_assoc, List.singleton_append] at h
      simp only [rowSpec, List.getLastD_cons]
      exact h

/-- Initially `prev[j] = j` (`app.js` line 178) is exactly the row of
distances from the empty prefix of `a`. -/
lemma rowSpec_nil_eq_range' : ∀ (c u : List Char),
    rowSpec ([] : List Char) u c = List.range' u.length (c.length + 1)
  | [], u => by simp [rowSpec]
  | z :: zs, u => by
      have h := rowSpec_nil_eq_range' zs (u ++ [z])
      simp only [List.length_append, List.length_cons, List.length_nil] at h
      simp [rowSpec, h, List.range'_succ]

/-- One pass of the inner loop turns the row for prefix `a₁` into the row
for `a₁ ++ [x]`. -/
lemma nextRowAux_spec (a₁ : List Char) (x : Char) : ∀ (c u : List Char),
    lev (a₁ ++ [x]) u :: nextRowAux x c (rowSpec a₁ u c) (lev (a₁ ++ [x]) u) =
      rowSpec (a₁ ++ [x]) u c
  | [], u => by simp [nextRowAux, rowSpec]
  | bj :: bs, u => by
      have ih := nextRowAux_spec a₁ x bs (u ++ [bj])
      have hv : min ((rowSpec a₁ (u ++ [bj]) bs).headD 0 + 1)
            (min (lev (a₁ ++ [x]) u + 1) (lev a₁ u + cost x bj)) =
          lev (a₁ ++ [x]) (u ++ [bj]) := by
        rw [rowSpec_headD, (lev_snoc x bj (a₁.length + u.length) a₁ u rfl).symm]
      simp only [rowSpec, nextRowAux, hv, ih]

lemma foldl_min_le_init : ∀ (l : List Nat) (m : Nat), l.foldl min m ≤ m
  | [], m => le_refl m
  | x :: xs, m => le_trans (foldl_min_le_init xs (min m x)) (min_le_left m x)

lemma foldl_min_le_mem : ∀ (l : List Nat) (m v : Nat), v ∈ l → l.foldl min m ≤ v
  | [], _, _, h => absurd h (List.not_mem_nil _)
  | x :: xs, m, v, h => by
      rcases List.mem_cons.mp h with rfl | h'
      · exact le_trans (foldl_min_le_init xs (min m v)) (min_le_right m v)
      · exact foldl_min_le_mem xs (min m x) v h'

/-- Entries of the row for `a' ++ [x]` are bounded below by any lower bound
of the row for `a'` (given that the bound also holds at the new row's first
entry): row minima never decrease as the DP advances. -/
lemma rowSpec_ge (a' : List Char) (x : Char) (m : Nat) : ∀ (c u : List Char),
    (∀ w ∈ rowSpec a' u c, m ≤ w) → m ≤ lev (a' ++ [x]) u →
    ∀ v ∈ rowSpec (a' ++ [x]) u c, m ≤ v
  | [], u, hold, hleft => by
      intro v hv
      simp only [rowSpec, List.mem_singleton] at hv
      exact hv ▸ hleft
  | bj :: bs, u, hold, hleft => by
      intro v hv
      simp only [rowSpec, List.mem_cons] at hv
      rcases hv with rfl | hv
      · exact hleft
      · refine rowSpec_ge a' x m bs (u ++ [bj]) ?_ ?_ v hv
        · intro w hw
          exact hold w (by simp only [rowSpec, List.mem_cons]; exact Or.inr hw)
        · have hrec := lev_snoc x bj (a'.length + u.length) a' u rfl
          have h1 : m ≤ lev a' (u ++ [bj]) :=
            hold _ (by
              simp only [rowSpec, List.mem_cons]
              exact Or.inr (rowSpec_self_mem a' (u ++ [bj]) bs))
          have h2 : m ≤ lev a' u := hold _ (rowSpec_self_mem a' u (bj :: bs))
          omega

/-- Iterated version of `rowSpec_ge`: once a row is bounded below by `m`,
every later row is too. -/
lemma rows_ge (b : List Char) (m : Nat) : ∀ (a₂ a' : List Char),
    (∀ v ∈ rowSpec a' [] b, m ≤ v) → ∀ v ∈ rowSpec (a' ++ a₂) [] b, m ≤ v
  | [], a', h => by simpa using h
  | z :: zs, a', h => by
      have hfirst : m ≤ lev (a' ++ [z]) [] := by
        have h0 : m ≤ lev a' [] := h _ (rowSpec_self_mem a' [] b)
        simp only [lev_nil_right, List.length_append, List.length_cons,
          List.length_nil] at h0 ⊢
        omega
      have hstep : ∀ v ∈ rowSpec (a' ++ [z]) [] b, m ≤ v :=
        rowSpec_ge a' z m b [] h hfirst
      have hrest := rows_ge b m zs (a' ++ [z]) hstep
      intro v hv
      refine hrest v ?_
      rw [List.append_assoc, List.singleton_append]
      exact hv

/-- Main loop invariant: starting from the row for the already-consumed
prefix `a₁`, the loop returns the (bounded) distance of the full string. -/
lemma levLoop_spec (mx : Nat) (b : List Char) : ∀ (rest a₁ : List Char),
    levLoop mx b rest (rowSpec a₁ [] b) a₁.length =
      if lev (a₁ ++ rest) b ≤ mx then lev (a₁ ++ rest) b else mx + 1
  | [], a₁ => by
      simp only [levLoop, List.append_nil]
      rw [rowSpec_getLastD a₁ b [] 0]
      simp only [List.nil_append]
  | x :: xs, a₁ => by
      have hlen : lev (a₁ ++ [x]) [] = a₁.length + 1 := by
        simp [List.length_append]
      have hrow := nextRowAux_spec a₁ x b []
      rw [hlen] at hrow
      by_cases hab : mx < (nextRowAux x b (rowSpec a₁ [] b) (a₁.length + 1)).foldl min
          (a₁.length + 1)
      · rw [levLoop, if_pos hab]
        have hall : ∀ v ∈ rowSpec (a₁ ++ [x]) [] b, mx + 1 ≤ v := by
          intro v hv
          rw [← hrow] at hv
          rcases List.mem_cons.mp hv with rfl | hv'
          · exact le_trans hab (foldl_min_le_init _ _)
          · exact le_trans hab (foldl_min_le_mem _ _ _ hv')
        have hge := rows_ge b (mx + 1) xs (a₁ ++ [x]) hall
        have hmem : lev ((a₁ ++ [x]) ++ xs) b ∈ rowSpec ((a₁ ++ [x]) ++ xs) [] b := by
          have := lev_mem_rowSpec ((a₁ ++ [x]) ++ xs) b []
          simpa using this
        have hgt : mx + 1 ≤ lev ((a₁ ++ [x]) ++ xs) b := hge _ hmem
        rw [List.append_assoc, List.singleton_append] at hgt
        rw [if_neg (by omega)]
      · rw [levLoop, if_neg hab]
        have hrec := levLoop_spec mx b xs (a₁ ++ [x])
        rw [← hrow] at hrec
        simp only [List.length_append, List.length_cons, List.length_nil] at hrec
        rw [hrec]
        rw [List.append_assoc, List.singleton_append]

/-- C1.  `levenshteinBounded(a, b, m)` always equals
`min (lev a b) (m + 1)`: the length-difference short-circuit and the
row-minimum early abort never change the returned value. -/
theorem levenshteinBounded_eq_min (a b : List Char) (mx : Nat) :
    levenshteinBounded a b mx = min (lev a b) (mx + 1) := by
  have hlb := lev_length_bound a b
  unfold levenshteinBounded
  by_cases h1 : mx < Nat.dist a.length b.length
  · rw [if_pos h1]
    simp only [Nat.dist] at h1
    omega
  · rw [if_neg h1]
    by_cases h2 : a.length = 0
    · rw [if_pos h2]
      obtain rfl := List.length_eq_zero.mp h2
      simp only [lev_nil_left]
      split <;> omega
    · rw [if_neg h2]
      by_cases h3 : b.length = 0
      · rw [if_pos h3]
        obtain rfl := List.length_eq_zero.mp h3
        simp only [lev_nil_right]
        split <;> omega
      · rw [if_neg h3]
        have h0 : List.range (b.length + 1) = rowSpec ([] : List Char) [] b := by
          rw [rowSpec_nil_eq_range', List.range_eq_range']
          simp
        rw [h0]
        have h := levLoop_spec mx b a []
        simp only [List.length_nil, List.nil_append] at h
        rw [h]
        split <;> omega

/-- Character class `[a-z0-9]` used by the token split of
`bestTokenDistance` (`app.js` line 152). -/
def isAlnumChar (c : Char) : Bool :=
  ('a' ≤ c && c ≤ 'z') || ('0' ≤ c && c ≤ '9')

/-- JavaScript whitespace (the `\s` regex class, which is also the set
trimmed by `String.prototype.trim`): tab, LF, VT, FF, CR, space, NBSP,
Ogham space mark, U+2000-U+200A, LS, PS, NNBSP, MMSP, ideographic space
and ZWNBSP. -/
def isWsChar (c : Char) : Bool :=
  [0x9, 0xa, 0xb, 0xc, 0xd, 0x20, 0xa0, 0x1680, 0x2028, 0x2029,
    0x202f, 0x205f, 0x3000, 0xfeff].contains c.toNat ||
  (0x2000 ≤ c.toNat && c.toNat ≤ 0x200a)

/-- Splits a string into the maximal runs of characters satisfying `keep`,
dropping separators.  This models `String.prototype.split` on a
one-or-more-separators regex followed by removal of empty fragments
(`q.split(/\s+/).filter(Boolean)`, and `hay.split(/[^a-z0-9]+/)` whose
empty fragments are removed by the later length-≥-3 filter). -/
def splitRuns (keep : Char → Bool) : List Char → List Char → List (List Char)
  | acc, [] => if acc.isEmpty then [] else [acc.reverse]
  | acc, c :: cs =>
      if keep c then splitRuns keep (c :: acc) cs
      else if acc.isEmpty then splitRuns keep [] cs
      else acc.reverse :: splitRuns keep [] cs

/-- The token list scanned by `bestTokenDistance`:
`hay.split(/[^a-z0-9]+/).filter(t => t.length >= 3)` (`app.js` line 152). -/
def hayTokens (hay : List Char) : List (List Char) :=
  (splitRuns isAlnumChar [] hay).filter (fun t => decide (3 ≤ t.length))

/-- Loop of `bestTokenDistance` (`app.js` lines 156-163): skip tokens whose
length differs from the query's by more than 2, otherwise update the
running best bounded distance, returning early on an exact 0. -/
def btGo (q : List Char) : List (List Char) → Nat → Nat
  | [], best => best
  | t :: ts, best =>
      if 2 < Nat.dist t.length q.length then btGo q ts best
      else
        if (if levenshteinBounded q t 2 < best then levenshteinBounded q t 2 else best) = 0
        then 0
        else btGo q ts (if levenshteinBounded q t 2 < best then levenshteinBounded q t 2 else best)

/-- Model of `bestTokenDistance(q, hay)` (`app.js` lines 150-166): scan at
most the first 80 tokens, starting from the sentinel 99. -/
def bestTokenDistance (q hay : List Char) : Nat :=
  btGo q ((hayTokens hay).take 80) 99

/-- The tokens actually compared by `bestTokenDistance`: the first 80
length-≥-3 tokens, minus those skipped by the length-difference quick
bound. -/
def examinedTokens (q hay : List Char) : List (List Char) :=
  ((hayTokens hay).take 80).filter (fun t => decide (Nat.dist t.length q.length ≤ 2))

lemma foldr_min_le_init : ∀ (l : List Nat) (m : Nat), l.foldr min m ≤ m
  | [], m => le_refl m
  | x :: xs, m => le_trans (min_le_right x _) (foldr_min_le_init xs m)

lemma foldr_min_shift : ∀ (l : List Nat) (a b : Nat),
    l.foldr min (min a b) = min a (l.foldr min b)
  | [], _, _ => rfl
  | x :: xs, a, b => by
      simp only [List.foldr_cons, foldr_min_shift xs a b]
      rw [min_left_comm]

lemma ite_lt_eq_min (a b : Nat) : (if a < b then a else b) = min a b := by
  split <;> omega

/-- The running-best loop computes a fold of `min` over the examined
tokens' bounded distances. -/
lemma btGo_eq (q : List Char) : ∀ (ts : List (List Char)) (best : Nat),
    btGo q ts best =
      ((ts.filter (fun t => decide (Nat.dist t.length q.length ≤ 2))).map
        (fun t => levenshteinBounded q t 2)).foldr min best
  | [], _ => rfl
  | t :: ts, best => by
      by_cases hskip : 2 < Nat.dist t.length q.length
      · have hf : decide (Nat.dist t.length q.length ≤ 2) = false := by
          simp; omega
        simp only [btGo, if_pos hskip, List.filter_cons, hf, Bool.false_eq_true, if_neg,
          ite_false]
        exact btGo_eq q ts best
      · have hf : decide (Nat.dist t.length q.length ≤ 2) = true := by
          simp; omega
        simp only [btGo, if_neg hskip, List.filter_cons, hf, ite_true, List.map_cons,
          List.foldr_cons, ite_lt_eq_min]
        by_cases hz : min (levenshteinBounded q t 2) best = 0
        · rw [if_pos hz]
          have h1 := foldr_min_le_init
            ((ts.filter (fun t => decide (Nat.dist t.length q.length ≤ 2))).map
              (fun t => levenshteinBounded q t 2)) best
          omega
        · rw [if_neg hz, btGo_eq q ts _, foldr_min_shift]

/-- C3 counterexample: for `q = "aaa"`, `hay = "bbb"` the single token
`"bbb"` is examined (equal lengths) but has bounded distance 3 > 2, and
the function returns 3, not the sentinel 99 the claim requires. -/
theorem bestTokenDistance_not_sentinel_cex :
    bestTokenDistance ['a','a','a'] ['b','b','b'] = 3 ∧
    (∀ t ∈ examinedTokens ['a','a','a'] ['b','b','b'],
      ¬ levenshteinBounded ['a','a','a'] t 2 ≤ 2) ∧
    bestTokenDistance ['a','a','a'] ['b','b','b'] ≠ 99 := by
  refine ⟨by decide, by decide, by decide⟩

/-- C3 (amended): `bestTokenDistance q hay` equals the minimum of
`levenshteinBounded q t 2` over all examined tokens `t`, capped at the
initial sentinel 99 — in particular it is 99 exactly when no token is
examined, and it can be 3 (not 99) when tokens are examined but none is
within distance 2. -/
theorem bestTokenDistance_eq_min (q hay : List Char) :
    bestTokenDistance q hay =
      ((examinedTokens q hay).map (fun t => levenshteinBounded q t 2)).foldr min 99 :=
  btGo_eq q ((hayTokens hay).take 80) 99

/-- C7: the value of `bestTokenDistance` depends only on the first 80
length-≥-3 tokens of the haystack. -/
theorem bestTokenDistance_take80 (q hay1 hay2 : List Char)
    (h : (hayTokens hay1).take 80 = (hayTokens hay2).take 80) :
    bestTokenDistance q hay1 = bestTokenDistance q hay2 := by
  unfold bestTokenDistance
  rw [h]

/-- Witness for C7: appending an 81st token (`"zzz"`, within distance 0 of
the query) after 80 other tokens does not change the result. -/
theorem bestTokenDistance_take80_witness :
    bestTokenDistance ['z','z','z']
        ((List.replicate 80 ['a','a','b',' ']).flatten ++ ['z','z','z']) =
      bestTokenDistance ['z','z','z'] ((List.replicate 80 ['a','a','b',' ']).flatten) := by
  have h : (hayTokens ((List.replicate 80 ['a','a','b',' ']).flatten ++ ['z','z','z'])).take 80 =
      (hayTokens ((List.replicate 80 ['a','a','b',' ']).flatten)).take 80 := by decide
  exact bestTokenDistance_take80 ['z','z','z'] _ _ h

/-- First index (if any) at which `q` occurs as a contiguous substring of
`hay`: models `hay.indexOf(q)`, with `none` for `-1`. -/
def idxOf (hay q : List Char) : Option Nat :=
  (List.range (hay.length + 1)).find? (fun i => q.isPrefixOf (hay.drop i))

/-- Models `hay.includes(t)` (`app.js` line 133). -/
def includesList (hay t : List Char) : Bool :=
  (idxOf hay t).isSome

/-- The query tokens `q.split(/\s+/).filter(Boolean)` (`app.js` line 117). -/
def qTokensOf (q : List Char) : List (List Char) :=
  splitRuns (fun c => !(isWsChar c)) [] q

/-- `hits`: how many query tokens of length ≥ 3 occur in the entry's text
(`app.js` line 133). -/
def tierHits (qTokens : List (List Char)) (hay : List Char) : Nat :=
  (qTokens.filter (fun t => decide (3 ≤ t.length) && includesList hay t)).length

/-- Per-entry score of `offlineSearch` (`app.js` lines 124-140), with
`none` for `Infinity` (no match).  The float scores of the source are
modelled as exact rationals. -/
def tierScore (q : List Char) (qTokens : List (List Char)) (hay : List Char) : Option ℚ :=
  match idxOf hay q with
  | some pos => some ((pos : ℚ) / 10000)
  | none =>
      if 0 < tierHits qTokens hay then
        some (1 - (tierHits qTokens hay : ℚ) / ((max 1 qTokens.length : Nat) : ℚ))
      else if bestTokenDistance q hay ≤ 2 then
        some (2 + ((bestTokenDistance q hay : ℚ)) / 10)
      else none

/-- Per-entry scoring including the empty-text skip (`app.js` line 122). -/
def entryScore (q : List Char) (qTokens : List (List Char)) (hay : List Char) : Option ℚ :=
  if hay.isEmpty then none else tierScore q qTokens hay

/-- The unsorted `results` array (`app.js` lines 118-144): one
`(index, score)` pair per matching entry, in corpus order. -/
def searchResults (q : List Char) (corpus : List (List Char)) : List (Nat × ℚ) :=
  corpus.enum.filterMap
    (fun p => (entryScore q (qTokensOf q) p.2).map (fun s => (p.1, s)))

/-- Stable ascending insertion: the new element goes after every existing
element of score ≤ its own.  Folding this over the results in order models
the stable `Array.prototype.sort` with comparator `(a, b) => a.score -
b.score` (`app.js` line 146). -/
def insertScored (x : Nat × ℚ) : List (Nat × ℚ) → List (Nat × ℚ)
  | [] => [x]
  | y :: ys => if y.2 ≤ x.2 then y :: insertScored x ys else x :: y :: ys

def sortScored (l : List (Nat × ℚ)) : List (Nat × ℚ) :=
  l.foldl (fun acc x => insertScored x acc) []

/-- Model of `offlineSearch(q)` over the corpus of canonical search texts
(`app.js` lines 111-148). -/
def offlineSearch (q : List Char) (corpus : List (List Char)) : List Nat :=
  (sortScored (searchResults q corpus)).map (fun r => r.1)

lemma insertScored_perm (x : Nat × ℚ) :
    ∀ l : List (Nat × ℚ), (insertScored x l).Perm (x :: l)
  | [] => List.Perm.refl _
  | y :: ys => by
      simp only [insertScored]
      split
      · exact ((insertScored_perm x ys).cons y).trans (List.Perm.swap x y ys)
      · exact List.Perm.refl _

lemma sortScoredAux_perm : ∀ (l acc : List (Nat × ℚ)),
    (l.foldl (fun acc x => insertScored x acc) acc).Perm (acc ++ l)
  | [], acc => by simp
  | x :: xs, acc => by
      simp only [List.foldl_cons]
      refine (sortScoredAux_perm xs (insertScored x acc)).trans ?_
      have h1 : (insertScored x acc ++ xs).Perm ((x :: acc) ++ xs) :=
        (insertScored_perm x acc).append_right xs
      refine h1.trans ?_
      simp only [List.cons_append]
      exact (List.perm_middle).symm

lemma sortScored_perm (l : List (Nat × ℚ)) : (sortScored l).Perm l := by
  simpa using sortScoredAux_perm l []

/-- Output ordering: strictly increasing score, ties broken by corpus
index. -/
def scoreOrder (a b : Nat × ℚ) : Prop := a.2 < b.2 ∨ (a.2 = b.2 ∧ a.1 < b.1)

lemma insertScored_pairwise (x : Nat × ℚ) : ∀ (l : List (Nat × ℚ)),
    l.Pairwise scoreOrder → (∀ y ∈ l, y.1 < x.1) →
    (insertScored x l).Pairwise scoreOrder
  | [], _, _ => List.pairwise_singleton _ _
  | y :: ys, hp, hidx => by
      rcases List.pairwise_cons.mp hp with ⟨hy, hys⟩
      simp only [insertScored]
      split
      case isTrue hle =>
        refine List.pairwise_cons.mpr ⟨?_, insertScored_pairwise x ys hys
          (fun z hz => hidx z (List.mem_cons_of_mem _ hz))⟩
        intro z hz
        rcases List.mem_cons.mp ((insertScored_perm x ys).mem_iff.mp hz) with rfl | hz'
        · rcases lt_or_eq_of_le hle with h | h
          · exact Or.inl h
          · exact Or.inr ⟨h, hidx y (List.mem_cons_self _ _)⟩
        · exact hy z hz'
      case isFalse hgt =>
        push_neg at hgt
        refine List.pairwise_cons.mpr ⟨?_, hp⟩
        intro z hz
        rcases List.mem_cons.mp hz with rfl | hz'
        · exact Or.inl hgt
        · rcases hy z hz' with h | ⟨h, _⟩
          · exact Or.inl (lt_trans hgt h)
          · exact Or.inl (h ▸ hgt)

lemma sortScoredAux_pairwise : ∀ (l acc : List (Nat × ℚ)),
    acc.Pairwise scoreOrder →
    (∀ y ∈ acc, ∀ x ∈ l, y.1 < x.1) →
    l.Pairwise (fun a b => a.1 < b.1) →
    (l.foldl (fun acc x => insertScored x acc) acc).Pairwise scoreOrder
  | [], _, hacc, _, _ => hacc
  | x :: xs, acc, hacc, hcross, hl => by
      simp only [List.foldl_cons]
      rcases List.pairwise_cons.mp hl with ⟨hx, hxs⟩
      refine sortScoredAux_pairwise xs (insertScored x acc) ?_ ?_ hxs
      · exact insertScored_pairwise x acc hacc
          (fun y hy => hcross y hy x (List.mem_cons_self _ _))
      · intro y hy z hz
        rcases List.mem_cons.mp ((insertScored_perm x acc).mem_iff.mp hy) with rfl | hy'
        · exact hx z hz
        · exact hcross y hy' z (List.mem_cons_of_mem _ hz)

lemma sortScored_pairwise (l : List (Nat × ℚ))
    (h : l.Pairwise (fun a b => a.1 < b.1)) :
    (sortScored l).Pairwise scoreOrder :=
  sortScoredAux_pairwise l [] List.Pairwise.nil (by simp) h

lemma fst_le_of_mem_enumFrom {α : Type} :
    ∀ (l : List α) (n : Nat) (p : Nat × α), p ∈ List.enumFrom n l → n ≤ p.1
  | [], _, _, h => absurd h (List.not_mem_nil _)
  | _ :: xs, n, p, h => by
      rcases List.mem_cons.mp h with rfl | h'
      · exact le_refl n
      · exact le_trans (Nat.le_succ n) (fst_le_of_mem_enumFrom xs (n + 1) p h')

lemma enumFrom_pairwise {α : Type} :
    ∀ (l : List α) (n : Nat), (List.enumFrom n l).Pairwise (fun a b => a.1 < b.1)
  | [], _ => List.Pairwise.nil
  | _ :: xs, n => by
      refine List.pairwise_cons.mpr ⟨?_, enumFrom_pairwise xs (n + 1)⟩
      intro p hp
      exact lt_of_lt_of_le (Nat.lt_succ_self n) (fst_le_of_mem_enumFrom xs (n + 1) p hp)

/-- The unsorted results carry strictly increasing corpus indices. -/
lemma searchResults_fst_lt (q : List Char) (corpus : List (List Char)) :
    (searchResults q corpus).Pairwise (fun a b => a.1 < b.1) := by
  unfold searchResults
  rw [List.pairwise_filterMap]
  have henum : corpus.enum.Pairwise (fun a b => a.1 < b.1) := enumFrom_pairwise corpus 0
  refine henum.imp ?_
  intro a a' h b hb b' hb'
  rcases Option.map_eq_some'.mp (Option.mem_def.mp hb) with ⟨s, _, rfl⟩
  rcases Option.map_eq_some'.mp (Option.mem_def.mp hb') with ⟨s', _, rfl⟩
  exact h

/-- Characterization of the unsorted results: each element records a
corpus index together with the score of that entry. -/
lemma mem_searchResults {q : List Char} {corpus : List (List Char)} {i : Nat} {s : ℚ}
    (h : (i, s) ∈ searchResults q corpus) :
    i < corpus.length ∧ entryScore q (qTokensOf q) (corpus.getD i []) = some s := by
  unfold searchResults at h
  rcases List.mem_filterMap.mp h with ⟨p, hp, hmap⟩
  obtain ⟨j, hay⟩ := p
  rcases Option.map_eq_some'.mp hmap with ⟨s', hs', heq⟩
  simp only [Prod.mk.injEq] at heq
  obtain ⟨rfl, rfl⟩ := heq
  obtain ⟨hlt, hhay⟩ := List.mem_enum hp
  refine ⟨hlt, ?_⟩
  rw [List.getD_eq_getElem corpus [] hlt, ← hhay]
  exact hs'

/-- An index in the output of `offlineSearch` is an in-range corpus index
whose entry received a score. -/
lemma mem_offlineSearch {q : List Char} {corpus : List (List Char)} {i : Nat}
    (h : i ∈ offlineSearch q corpus) :
    ∃ s, i < corpus.length ∧ entryScore q (qTokensOf q) (corpus.getD i []) = some s := by
  unfold offlineSearch at h
  rcases List.mem_map.mp h with ⟨r, hr, hfst⟩
  obtain ⟨j, s⟩ := r
  obtain rfl : j = i := hfst
  have hr' := (sortScored_perm (searchResults q corpus)).mem_iff.mp hr
  obtain ⟨hlt, hscore⟩ := mem_searchResults hr'
  exact ⟨s, hlt, hscore⟩

/-- The score `offlineSearch` assigns to corpus index `i` (`none` when the
entry does not match). -/
def scoreOf (q : List Char) (corpus : List (List Char)) (i : Nat) : Option ℚ :=
  entryScore q (qTokensOf q) (corpus.getD i [])

/-- C4: the output of `offlineSearch` is sorted by ascending score, and
entries with equal scores appear in their original corpus-index order
(the sort is stable). -/
theorem offlineSearch_sorted_stable (q : List Char) (corpus : List (List Char))
    (p1 p2 : Nat) (h12 : p1 < p2) (h2 : p2 < (offlineSearch q corpus).length) :
    ∃ s1 s2,
      scoreOf q corpus ((offlineSearch q corpus).getD p1 0) = some s1 ∧
      scoreOf q corpus ((offlineSearch q corpus).getD p2 0) = some s2 ∧
      (s1 < s2 ∨ (s1 = s2 ∧
        (offlineSearch q corpus).getD p1 0 < (offlineSearch q corpus).getD p2 0)) := by
  have h1 : p1 < (offlineSearch q corpus).length := lt_trans h12 h2
  have hlen : (offlineSearch q corpus).length =
      (sortScored (searchResults q corpus)).length := by
    unfold offlineSearch
    exact List.length_map _ _
  have h1' : p1 < (sortScored (searchResults q corpus)).length := hlen ▸ h1
  have h2' : p2 < (sortScored (searchResults q corpus)).length := hlen ▸ h2
  have hpair := sortScored_pairwise _ (searchResults_fst_lt q corpus)
  have hord := List.pairwise_iff_get.mp hpair ⟨p1, h1'⟩ ⟨p2, h2'⟩ h12
  have hget : ∀ (p : Nat) (hp : p < (offlineSearch q corpus).length)
      (hp' : p < (sortScored (searchResults q corpus)).length),
      (offlineSearch q corpus).getD p 0 =
        ((sortScored (searchResults q corpus)).get ⟨p, hp'⟩).1 := by
    intro p hp hp'
    rw [List.getD_eq_getElem _ _ hp]
    unfold offlineSearch
    exact List.getElem_map _
  have hmem1 := mem_searchResults
    ((sortScored_perm (searchResults q corpus)).mem_iff.mp
      (List.get_mem (sortScored (searchResults q corpus)) p1 h1'))
  have hmem2 := mem_searchResults
    ((sortScored_perm (searchResults q corpus)).mem_iff.mp
      (List.get_mem (sortScored (searchResults q corpus)) p2 h2'))
  refine ⟨((sortScored (searchResults q corpus)).get ⟨p1, h1'⟩).2,
    ((sortScored (searchResults q corpus)).get ⟨p2, h2'⟩).2, ?_, ?_, ?_⟩
  · rw [hget p1 h1 h1']
    exact hmem1.2
  · rw [hget p2 h2 h2']
    exact hmem2.2
  · rw [hget p1 h1 h1', hget p2 h2 h2']
    exact hord

/-- C10: the indices returned by `offlineSearch` are pairwise distinct,
each in range, and there are at most as many results as corpus entries. -/
theorem offlineSearch_nodup_bounded (q : List Char) (corpus : List (List Char)) :
    (offlineSearch q corpus).Nodup ∧
    (∀ i ∈ offlineSearch q corpus, i < corpus.length) ∧
    (offlineSearch q corpus).length ≤ corpus.length := by
  refine ⟨?_, ?_, ?_⟩
  · have hperm : (offlineSearch q corpus).Perm
        ((searchResults q corpus).map (fun r => r.1)) :=
      (sortScored_perm (searchResults q corpus)).map _
    rw [hperm.nodup_iff]
    have := searchResults_fst_lt q corpus
    exact List.Pairwise.imp Nat.ne_of_lt (List.pairwise_map.mpr this)
  · intro i hi
    obtain ⟨s, hlt, _⟩ := mem_offlineSearch hi
    exact hlt
  · have h1 : (offlineSearch q corpus).length = (searchResults q corpus).length := by
      unfold offlineSearch
      rw [List.length_map]
      exact (sortScored_perm _).length_eq
    rw [h1]
    calc (searchResults q corpus).length ≤ corpus.enum.length :=
          List.length_filterMap_le _ _
      _ = corpus.length := List.enum_length

/-- Witness for C10 at a concrete query and corpus. -/
theorem offlineSearch_nodup_bounded_witness :
    (offlineSearch "abc".toList ["abc".toList, [] ]).Nodup ∧
    (∀ i ∈ offlineSearch "abc".toList ["abc".toList, [] ],
      i < (["abc".toList, [] ] : List (List Char)).length) ∧
    (offlineSearch "abc".toList ["abc".toList, [] ]).length ≤
      (["abc".toList, [] ] : List (List Char)).length :=
  offlineSearch_nodup_bounded "abc".toList ["abc".toList, [] ]

lemma le_foldr_min : ∀ (l : List Nat) (m k : Nat),
    k ≤ m → (∀ v ∈ l, k ≤ v) → k ≤ l.foldr min m
  | [], _, _, h, _ => h
  | x :: xs, m, k, h, hall => by
      simp only [List.foldr_cons]
      exact le_min (hall x (List.mem_cons_self _ _))
        (le_foldr_min xs m k h (fun v hv => hall v (List.mem_cons_of_mem _ hv)))

/-- C6: an entry whose text does not contain the query as a substring,
contains none of the query's length-≥-3 whitespace tokens as a substring,
and has no examined token within bounded edit distance 2 of the query, is
absent from the results of `offlineSearch`. -/
theorem offlineSearch_excludes (q : List Char) (corpus : List (List Char)) (i : Nat)
    (h1 : idxOf (corpus.getD i []) q = none)
    (h2 : ∀ t ∈ qTokensOf q, 3 ≤ t.length → includesList (corpus.getD i []) t = false)
    (h3 : ∀ t ∈ examinedTokens q (corpus.getD i []), ¬ levenshteinBounded q t 2 ≤ 2) :
    i ∉ offlineSearch q corpus := by
  intro hmem
  obtain ⟨s, hlt, hscore⟩ := mem_offlineSearch hmem
  by_cases hempty : (corpus.getD i []).isEmpty
  · rw [entryScore, if_pos hempty] at hscore
    exact Option.noConfusion hscore
  · rw [entryScore, if_neg hempty] at hscore
    have hhits : tierHits (qTokensOf q) (corpus.getD i []) = 0 := by
      unfold tierHits
      rw [List.length_eq_zero, List.filter_eq_nil_iff]
      intro t ht
      simp only [Bool.and_eq_true, decide_eq_true_eq, not_and]
      intro hlen hinc
      rw [h2 t ht hlen] at hinc
      exact Bool.noConfusion hinc
    have hbtd : ¬ bestTokenDistance q (corpus.getD i []) ≤ 2 := by
      have hfold : 3 ≤ bestTokenDistance q (corpus.getD i []) := by
        unfold bestTokenDistance
        rw [btGo_eq]
        refine le_foldr_min _ 99 3 (by omega) ?_
        intro v hv
        rcases List.mem_map.mp hv with ⟨t, ht, rfl⟩
        have h3t := h3 t (by unfold examinedTokens; exact ht)
        omega
      omega
    unfold tierScore at hscore
    rw [h1] at hscore
    simp only [hhits, lt_self_iff_false, if_false, hbtd, ite_false] at hscore
    exact Option.noConfusion hscore

/-- Witness for C6: `"zzzzz"` matches neither entry of
`["apple", "banana"]` in any tier, so index 0 is absent. -/
theorem offlineSearch_excludes_witness :
    (0 : Nat) ∉ offlineSearch "zzzzz".toList ["apple".toList, "banana".toList] :=
  offlineSearch_excludes "zzzzz".toList ["apple".toList, "banana".toList] 0
    (by decide) (by decide) (by decide)

/-- C2 counterexample: for query `"abc abc"` the entry `"abc"` matches only
in the token-overlap tier (tier 2) yet receives score `0 < 1`, the same
score as the tier-1 entry `"abc abc"`: tier-2 scores are not ≥ 1, and a
tier-1 entry does not always score strictly lower than a tier-2 entry. -/
theorem tier2_score_not_ge_one_cex :
    idxOf "abc".toList "abc abc".toList = none ∧
    0 < tierHits (qTokensOf "abc abc".toList) "abc".toList ∧
    tierScore "abc abc".toList (qTokensOf "abc abc".toList) "abc".toList = some 0 ∧
    tierScore "abc abc".toList (qTokensOf "abc abc".toList) "abc abc".toList = some 0 ∧
    ¬ (1 : ℚ) ≤ 0 := by
  have h1 : idxOf "abc".toList "abc abc".toList = none := by decide
  have h2 : tierHits (qTokensOf "abc abc".toList) "abc".toList = 2 := by decide
  have h3 : (qTokensOf "abc abc".toList).length = 2 := by decide
  have h4 : idxOf "abc abc".toList "abc abc".toList = some 0 := by decide
  refine ⟨h1, by omega, ?_, ?_, by norm_num⟩
  · simp only [tierScore, h1, h2, h3]
    norm_num
  · simp only [tierScore, h4]
    norm_num

/-- C2 (amended): tier-3 scores always lie in `[2, 11/5]` and tier-2
scores in `[0, 1)`; hence a tier-2 entry always strictly outranks a
tier-3 entry, and a tier-1 entry strictly outranks a tier-3 entry whenever
its match position is below 20000.  A tier-2 score, however, can be as low
as 0, tying or beating tier-1 scores, so tier 1 does not always strictly
outrank tier 2. -/
theorem tier_score_separation (q hay1 hay2 hay3 : List Char) (p : Nat) (s1 s2 s3 : ℚ)
    (ht1 : idxOf hay1 q = some p)
    (hs1 : tierScore q (qTokensOf q) hay1 = some s1)
    (hp : p < 20000)
    (ht2 : idxOf hay2 q = none)
    (hh2 : 0 < tierHits (qTokensOf q) hay2)
    (hs2 : tierScore q (qTokensOf q) hay2 = some s2)
    (ht3 : idxOf hay3 q = none)
    (hh3 : tierHits (qTokensOf q) hay3 = 0)
    (hs3 : tierScore q (qTokensOf q) hay3 = some s3) :
    0 ≤ s2 ∧ s2 < 1 ∧ 2 ≤ s3 ∧ s3 ≤ 11/5 ∧ s2 < s3 ∧ s1 < s3 := by
  have e1 : s1 = (p : ℚ) / 10000 := by
    simp only [tierScore, ht1, Option.some.injEq] at hs1
    exact hs1.symm
  have e2 : s2 = 1 - (tierHits (qTokensOf q) hay2 : ℚ) /
      ((max 1 (qTokensOf q).length : Nat) : ℚ) := by
    simp only [tierScore, ht2, hh2, if_true, if_pos, Option.some.injEq] at hs2
    exact hs2.symm
  have e3 : bestTokenDistance q hay3 ≤ 2 ∧
      s3 = 2 + (bestTokenDistance q hay3 : ℚ) / 10 := by
    by_cases hb : bestTokenDistance q hay3 ≤ 2
    · simp only [tierScore, ht3, hh3, lt_self_iff_false, if_false, hb, if_true,
        ite_true, Option.some.injEq] at hs3
      exact ⟨hb, hs3.symm⟩
    · simp only [tierScore, ht3, hh3, lt_self_iff_false, if_false, hb,
        ite_false] at hs3
      exact Option.noConfusion hs3
  have hhn : tierHits (qTokensOf q) hay2 ≤ (qTokensOf q).length :=
    List.length_filter_le _ _
  have hm0 : (0 : ℚ) < ((max 1 (qTokensOf q).length : Nat) : ℚ) := by
    have : 1 ≤ max 1 (qTokensOf q).length := le_max_left _ _
    exact_mod_cast lt_of_lt_of_le zero_lt_one (by exact_mod_cast this)
  have hdivle : (tierHits (qTokensOf q) hay2 : ℚ) /
      ((max 1 (qTokensOf q).length : Nat) : ℚ) ≤ 1 := by
    rw [div_le_one hm0]
    have : tierHits (qTokensOf q) hay2 ≤ max 1 (qTokensOf q).length :=
      le_trans hhn (le_max_right _ _)
    exact_mod_cast this
  have hdivpos : 0 < (tierHits (qTokensOf q) hay2 : ℚ) /
      ((max 1 (qTokensOf q).length : Nat) : ℚ) := by
    apply div_pos _ hm0
    exact_mod_cast hh2
  have hb2 : (bestTokenDistance q hay3 : ℚ) ≤ 2 := by exact_mod_cast e3.1
  have hb0 : (0 : ℚ) ≤ (bestTokenDistance q hay3 : ℚ) := Nat.cast_nonneg _
  have hp' : (p : ℚ) < 20000 := by exact_mod_cast hp
  refine ⟨?_, ?_, ?_, ?_, ?_, ?_⟩
  · rw [e2]; linarith
  · rw [e2]; linarith
  · rw [e3.2]; linarith
  · rw [e3.2]; linarith
  · rw [e2, e3.2]; linarith
  · rw [e1, e3.2]; linarith

/-- Witness for the amended C2 at query `"abc d"`: `"abc d"` matches tier
1 at position 0 (score 0), `"xabcx"` matches tier 2 (score 1/2), and
`"xbcd"` matches tier 3 (score 11/5). -/
theorem tier_score_separation_witness :
    0 ≤ (1/2 : ℚ) ∧ (1/2 : ℚ) < 1 ∧ 2 ≤ (11/5 : ℚ) ∧ (11/5 : ℚ) ≤ 11/5 ∧
      (1/2 : ℚ) < 11/5 ∧ (0 : ℚ) < 11/5 := by
  have h4 : idxOf "abc d".toList "abc d".toList = some 0 := by decide
  have hs1 : tierScore "abc d".toList (qTokensOf "abc d".toList) "abc d".toList
      = some 0 := by
    simp only [tierScore, h4]
    norm_num
  have ht2 : idxOf "xabcx".toList "abc d".toList = none := by decide
  have hh2 : tierHits (qTokensOf "abc d".toList) "xabcx".toList = 1 := by decide
  have hn : (qTokensOf "abc d".toList).length = 2 := by decide
  have hs2 : tierScore "abc d".toList (qTokensOf "abc d".toList) "xabcx".toList
      = some (1/2) := by
    simp only [tierScore, ht2, hh2, hn]
    norm_num
  have ht3 : idxOf "xbcd".toList "abc d".toList = none := by decide
  have hh3 : tierHits (qTokensOf "abc d".toList) "xbcd".toList = 0 := by decide
  have hb : bestTokenDistance "abc d".toList "xbcd".toList = 2 := by decide
  have hs3 : tierScore "abc d".toList (qTokensOf "abc d".toList) "xbcd".toList
      = some (11/5) := by
    simp only [tierScore, ht3, hh3, hb]
    norm_num
  exact tier_score_separation "abc d".toList "abc d".toList "xabcx".toList
    "xbcd".toList 0 0 (1/2) (11/5) h4 hs1 (by omega) ht2 (by omega) hs2 ht3 hh3 hs3

/-- Witness for C4 at query `"abc"` over the corpus `["abc", "abc"]`:
both entries score 0 and appear in corpus order. -/
theorem offlineSearch_sorted_stable_witness :
    ∃ s1 s2,
      scoreOf "abc".toList ["abc".toList, "abc".toList]
        ((offlineSearch "abc".toList ["abc".toList, "abc".toList]).getD 0 0) = some s1 ∧
      scoreOf "abc".toList ["abc".toList, "abc".toList]
        ((offlineSearch "abc".toList ["abc".toList, "abc".toList]).getD 1 0) = some s2 ∧
      (s1 < s2 ∨ (s1 = s2 ∧
        (offlineSearch "abc".toList ["abc".toList, "abc".toList]).getD 0 0 <
          (offlineSearch "abc".toList ["abc".toList, "abc".toList]).getD 1 0)) := by
  have henum : (["abc".toList, "abc".toList] : List (List Char)).enum =
      [(0, "abc".toList), (1, "abc".toList)] := by decide
  have hq : idxOf "abc".toList "abc".toList = some 0 := by decide
  have hres : searchResults "abc".toList ["abc".toList, "abc".toList] =
      [(0, 0), (1, 0)] := by
    rw [searchResults, henum]
    simp only [List.filterMap_cons, List.filterMap_nil, entryScore, tierScore, hq]
    norm_num
  have hout : offlineSearch "abc".toList ["abc".toList, "abc".toList] = [0, 1] := by
    rw [offlineSearch, hres]
    norm_num [sortScored, insertScored]
  have hlen : 1 < (offlineSearch "abc".toList ["abc".toList, "abc".toList]).length := by
    rw [hout]
    simp
  exact offlineSearch_sorted_stable "abc".toList ["abc".toList, "abc".toList]
    0 1 (by omega) hlen

/-- A vocabulary entry as built at load time (`app.js` lines 69-72): the
raw per-language fields together with the precomputed canonical search
text `_search`. -/
structure Word where
  en : Option (List Char) := none
  fr : Option (List Char) := none
  es : Option (List Char) := none
  it : Option (List Char) := none
  lat : Option (List Char) := none
  wordType : List Char := []
  searchText : List Char := []

/-- `offlineSearch` as invoked by the app: of the whole word objects it
reads exactly `state.words[i]._search` (`app.js` line 121). -/
def offlineSearchApp (words : List Word) (q : List Char) : List Nat :=
  offlineSearch q (words.map (fun w => w.searchText))

/-- Model of `searchIndices(queryNorm)` (`app.js` lines 96-109): the
3-character activation floor, then the primary (Fuse.js) matcher when it
is loaded, else the offline fallback.  The optional primary matcher is
abstracted as a function argument, `none` when unavailable. -/
def searchIndices (fuse : Option (List Char → List Nat)) (words : List Word)
    (queryNorm : List Char) : List Nat :=
  if queryNorm.length < 3 then List.range words.length
  else
    match fuse with
    | some f => f queryNorm
    | none => offlineSearchApp words queryNorm

/-- C5: a normalized query of fewer than 3 characters yields the full
index sequence `0..n-1` in corpus order, regardless of which matchers are
available — neither the primary matcher nor `offlineSearch` affects the
result. -/
theorem searchIndices_short_query (fuse : Option (List Char → List Nat))
    (words : List Word) (queryNorm : List Char) (h : queryNorm.length < 3) :
    searchIndices fuse words queryNorm = List.range words.length := by
  unfold searchIndices
  rw [if_pos h]

/-- Witness for C5: the two-character query `"ab"` over a two-word corpus
returns `[0, 1]` even though a (deliberately wrong) primary matcher is
installed. -/
theorem searchIndices_short_query_witness :
    searchIndices (some (fun _ => [9])) [{ }, { searchText := "xy".toList }]
      "ab".toList = List.range 2 :=
  searchIndices_short_query (some (fun _ => [9]))
    [{ }, { searchText := "xy".toList }] "ab".toList (by decide)

/-- C9: `offlineSearch` is a pure, deterministic function of the query and
the words' canonical search texts: two word lists with identical `_search`
projections produce identical index sequences, whatever their other
fields. -/
theorem offlineSearchApp_pure (q : List Char) (words1 words2 : List Word)
    (h : words1.map (fun w => w.searchText) = words2.map (fun w => w.searchText)) :
    offlineSearchApp words1 q = offlineSearchApp words2 q := by
  unfold offlineSearchApp
  rw [h]

/-- Witness for C9: two single-word corpora that differ in every field
except `_search` give the same result. -/
theorem offlineSearchApp_pure_witness :
    offlineSearchApp [{ en := some "cat".toList, searchText := "cat".toList }]
        "cat".toList =
      offlineSearchApp [{ fr := some "chat".toList, searchText := "cat".toList }]
        "cat".toList :=
  offlineSearchApp_pure "cat".toList
    [{ en := some "cat".toList, searchText := "cat".toList }]
    [{ fr := some "chat".toList, searchText := "cat".toList }] rfl

/-- Combining diacritical marks U+0300-U+036F, stripped by `norm`
(`app.js` line 32). -/
def isMark (c : Char) : Bool :=
  decide (0x300 ≤ c.toNat) && decide (c.toNat ≤ 0x36f)

/-- The `replace(/[̀-ͯ]/g, "")` step of `norm`. -/
def stripMarks (l : List Char) : List Char := l.filter (fun c => !(isMark c))

/-- `String.prototype.trim`: remove leading and trailing JS whitespace. -/
def trimWs (l : List Char) : List Char :=
  ((l.dropWhile isWsChar).reverse.dropWhile isWsChar).reverse

/-- Model of `norm(s)` (`app.js` lines 28-35): NFD decomposition, mark
stripping, lowercasing, trimming.  The NFD decomposition and the Unicode
lowercase mapping are runtime services of the JS engine
(`String.prototype.normalize("NFD")`, `String.prototype.toLowerCase`), so
they are parameters of the model. -/
def normWith (nfd lower : List Char → List Char) (s : List Char) : List Char :=
  trimWs (lower (stripMarks (nfd s)))

lemma stripMarks_idem (l : List Char) : stripMarks (stripMarks l) = stripMarks l := by
  unfold stripMarks
  rw [List.filter_filter]
  simp

lemma mem_of_mem_trimWs {c : Char} {l : List Char} (h : c ∈ trimWs l) : c ∈ l := by
  unfold trimWs at h
  rw [List.mem_reverse] at h
  have h1 : c ∈ (l.dropWhile isWsChar).reverse :=
    (List.dropWhile_suffix _).subset h
  rw [List.mem_reverse] at h1
  exact (List.dropWhile_suffix _).subset h1

lemma stripMarks_trimWs {l : List Char} (h : stripMarks l = l) :
    stripMarks (trimWs l) = trimWs l := by
  unfold stripMarks at h ⊢
  rw [List.filter_eq_self] at h ⊢
  intro c hc
  exact h c (mem_of_mem_trimWs hc)

lemma head_false_of_dropWhile_cons {p : Char → Bool} :
    ∀ (l : List Char) (c : Char) (cs : List Char),
      l.dropWhile p = c :: cs → p c = false
  | [], _, _, h => by simp [List.dropWhile] at h
  | x :: xs, c, cs, h => by
      rw [List.dropWhile_cons] at h
      split at h
      · exact head_false_of_dropWhile_cons xs c cs h
      · next hpx =>
          obtain ⟨rfl, rfl⟩ := List.cons.injEq .. ▸ h
          simpa using hpx

lemma dropWhile_idem {p : Char → Bool} (l : List Char) :
    (l.dropWhile p).dropWhile p = l.dropWhile p := by
  rcases hd : l.dropWhile p with _ | ⟨c, cs⟩
  · simp
  · rw [List.dropWhile_cons,
      if_neg (by simp [head_false_of_dropWhile_cons l c cs hd])]

lemma trimWs_idem (l : List Char) : trimWs (trimWs l) = trimWs l := by
  unfold trimWs
  have h1 : ((l.dropWhile isWsChar).reverse.dropWhile isWsChar).reverse.dropWhile
      isWsChar = ((l.dropWhile isWsChar).reverse.dropWhile isWsChar).reverse := by
    rcases hz : ((l.dropWhile isWsChar).reverse.dropWhile isWsChar).reverse
      with _ | ⟨c, cs⟩
    · simp
    · have hpre : ((l.dropWhile isWsChar).reverse.dropWhile isWsChar).reverse <+:
          l.dropWhile isWsChar := by
        have hsuf := List.dropWhile_suffix (l := (l.dropWhile isWsChar).reverse)
          (p := isWsChar)
        have := List.reverse_prefix.mpr hsuf
        simpa using this
      obtain ⟨t, ht⟩ := hpre
      rw [hz] at ht
      have hA : l.dropWhile isWsChar = c :: (cs ++ t) := by
        rw [← ht]
        simp
      have hc := head_false_of_dropWhile_cons l c (cs ++ t) hA
      rw [List.dropWhile_cons, if_neg (by simp [hc])]
  rw [h1, List.reverse_reverse, dropWhile_idem]

/-- C8: the normalizer is idempotent.  The two Unicode services are
abstract parameters constrained by their standard properties: NFD is
idempotent; removing combining marks, lowercasing and trimming preserve
NFD-normality; lowercasing a mark-free NFD string introduces no marks in
U+0300-U+036F; lowercasing is idempotent and commutes with trimming on
lowercase strings.  Under these, `norm (norm s) = norm s` for every
string `s`. -/
theorem normWith_idem (nfd lower : List Char → List Char)
    (hnfd_idem : ∀ t, nfd (nfd t) = nfd t)
    (hnfd_strip : ∀ t, nfd t = t → nfd (stripMarks t) = stripMarks t)
    (hlower_pres : ∀ t, nfd t = t → stripMarks t = t →
      nfd (lower t) = lower t ∧ stripMarks (lower t) = lower t)
    (hlower_idem : ∀ t, lower (lower t) = lower t)
    (hnfd_trim : ∀ t, nfd t = t → nfd (trimWs t) = trimWs t)
    (hlower_trim : ∀ t, lower t = t → lower (trimWs t) = trimWs t)
    (s : List Char) :
    normWith nfd lower (normWith nfd lower s) = normWith nfd lower s := by
  unfold normWith
  have hu1 : nfd (nfd s) = nfd s := hnfd_idem s
  have hu2n : nfd (stripMarks (nfd s)) = stripMarks (nfd s) := hnfd_strip _ hu1
  have hu2s : stripMarks (stripMarks (nfd s)) = stripMarks (nfd s) :=
    stripMarks_idem _
  obtain ⟨hu3n, hu3s⟩ := hlower_pres _ hu2n hu2s
  have hu3l : lower (lower (stripMarks (nfd s))) = lower (stripMarks (nfd s)) :=
    hlower_idem _
  have hzn := hnfd_trim _ hu3n
  have hzs := stripMarks_trimWs hu3s
  have hzl := hlower_trim _ hu3l
  rw [hzn, hzs, hzl]
  exact trimWs_idem _

/-- Witness for C8 (instantiating the Unicode services with the identity,
which satisfies every hypothesis). -/
theorem normWith_idem_witness :
    normWith id id (normWith id id "  Cafe  ".toList) =
      normWith id id "  Cafe  ".toList :=
  normWith_idem id id (fun _ => rfl) (fun _ _ => rfl)
    (fun _ _ h2 => ⟨rfl, h2⟩) (fun _ => rfl) (fun _ _ => rfl) (fun _ _ => rfl)
    "  Cafe  ".toList

end Polyglot
